import Mathlib

/- Shallow embedding of src/backend/lru.go: a bounded LRU cache with per-entry
   TTL expiration, a lazily expiring Get, an evicting Set, a periodic cleanup
   sweep, and the HTTP write handler. Go int is modelled as Int, time.Time as
   an integer timestamp (time.Now().After(t) is the strict comparison now > t,
   time.Now().Add(d seconds) is now + d), and the container/list doubly linked
   list as a sequence of allocated node identifiers together with a heap
   assigning every identifier its CacheItem, so that the map may keep pointing
   at a node independently of the node's place in the list, exactly as the Go
   map holds *list.Element pointers. -/

/-- Mirrors the Go struct CacheItem (lru.go lines 23-27): the stored key and
value together with the absolute expiration instant. -/
structure CacheItem where
  key : Int
  value : Int
  expireAt : Int
deriving DecidableEq

/-- Mirrors the Go struct LRUCache (lru.go lines 14-20). The field
cache map[int]*list.Element becomes an association list from key to the
identifier of the node it points at; the field list *list.List becomes the
sequence of node identifiers, front (most recently used) first; nodes is the
heap, assigning every identifier a CacheItem; nextId supplies fresh
identifiers for PushFront allocations. The mutex mu only serialises the
operations and has no sequential content, so it is dropped; the interleaving
of the serialised operations is the Op sequences below. -/
structure LRUCache where
  capacity : Int
  expireSec : Int
  cache : List (Int × Nat)
  list : List Nat
  nodes : Nat → CacheItem
  nextId : Nat

/-- Go map lookup cache[key]: the association list is searched front to back;
insertions keep keys unique, matching Go map semantics. -/
def findKey : List (Int × Nat) → Int → Option Nat
  | [], _ => none
  | p :: rest, key => if key = p.1 then some p.2 else findKey rest key

/-- Go delete(cache, key): every binding of the key is removed. -/
def eraseKey (m : List (Int × Nat)) (key : Int) : List (Int × Nat) :=
  m.filter (fun p => !(p.1 == key))

/-- Go map store cache[key] = e: the key is bound to e, replacing any previous
binding. -/
def insertKey (m : List (Int × Nat)) (key : Int) (e : Nat) : List (Int × Nat) :=
  (key, e) :: eraseKey m key

/-- The keys currently bound by the map. -/
def keysOf (m : List (Int × Nat)) : List Int := m.map Prod.fst

/-- Go list.MoveToFront(e) from container/list: a node that is in the list is
moved to the front; a foreign node leaves the list unchanged. -/
def moveToFront (eid : Nat) (l : List Nat) : List Nat :=
  if eid ∈ l then eid :: l.erase eid else l

/-- Go list.PushFront combined with the map store cache[key] = elem
(lru.go lines 79-80): a fresh node holding the new CacheItem with deadline
now + expireSec is allocated, placed at the front, and indexed under key. -/
def pushFront (lru : LRUCache) (now key value : Int) : LRUCache :=
  { lru with
    cache := insertKey lru.cache key lru.nextId
    list := lru.nextId :: lru.list
    nodes := fun n =>
      if n = lru.nextId then
        { key := key, value := value, expireAt := now + lru.expireSec }
      else lru.nodes n
    nextId := lru.nextId + 1 }

/-- Mirrors Get (lru.go lines 46-61). time.Now() is the parameter now, and
time.Now().After(expireAt) is the strict comparison now > expireAt. On a hit
of an expired entry the key is deleted from the map, the node is removed from
the list and absence is reported (none models the -1 return of the source);
on a live hit the node moves to the front and its value is returned. -/
def LRUCache.Get (lru : LRUCache) (now key : Int) : LRUCache × Option Int :=
  match findKey lru.cache key with
  | some eid =>
    if now > (lru.nodes eid).expireAt then
      ({ lru with cache := eraseKey lru.cache key, list := lru.list.erase eid }, none)
    else
      ({ lru with list := moveToFront eid lru.list }, some (lru.nodes eid).value)
  | none => (lru, none)

/-- Mirrors Set (lru.go lines 66-82). An existing key has its node updated in
place (new value, deadline now + expireSec) and moved to the front. For a new
key, when len(cache) >= capacity the back of the list is evicted first: the
back node's key is deleted from the map and the back node removed from the
list; when the list is empty at that point the source dereferences the nil
result of list.Back() and panics, modelled as none. Finally the new entry is
pushed at the front. -/
def LRUCache.Set (lru : LRUCache) (now key value : Int) : Option LRUCache :=
  match findKey lru.cache key with
  | some eid =>
    some { lru with
      nodes := fun n =>
        if n = eid then
          { lru.nodes eid with value := value, expireAt := now + lru.expireSec }
        else lru.nodes n
      list := moveToFront eid lru.list }
  | none =>
    if lru.capacity ≤ (lru.cache.length : Int) then
      match lru.list.getLast? with
      | some backId =>
        some (pushFront
          { lru with
            cache := eraseKey lru.cache (lru.nodes backId).key
            list := lru.list.dropLast } now key value)
      | none => none
    else
      some (pushFront lru now key value)

/-- Mirrors one pass of the cleanup loop body (lru.go lines 89-94): every map
entry whose node is expired is deleted from the map, and its node removed
from the list. Go map iteration order does not matter here because each
removal depends only on the entry itself, so the pass is a filter; the
repeated time.Now() reads of the loop are modelled as the single instant
now. -/
def LRUCache.cleanup (lru : LRUCache) (now : Int) : LRUCache :=
  { lru with
    cache := lru.cache.filter (fun p => !decide (now > (lru.nodes p.2).expireAt))
    list := lru.list.filter (fun eid =>
      !lru.cache.any (fun p => decide (now > (lru.nodes p.2).expireAt) && p.2 == eid)) }

/-- Mirrors NewLRUCache (lru.go lines 30-42): the struct is initialised with
the given capacity and expiry and an empty map and list; no validation of
either argument is performed and construction cannot fail. The cleanup
goroutine it spawns appears in the operation alphabet below as Op.sweep. -/
def NewLRUCache (capacity expireSec : Int) : LRUCache :=
  { capacity := capacity
    expireSec := expireSec
    cache := []
    list := []
    nodes := fun _ => { key := 0, value := 0, expireAt := 0 }
    nextId := 0 }

/-- The operations that touch the store: Get and Set from callers and one pass
of the cleanup sweeper, each performed at some instant. The mutex makes every
concurrent execution a sequence of these. -/
inductive Op where
  | get (now key : Int)
  | set (now key value : Int)
  | sweep (now : Int)

/-- Runs a sequence of operations from a starting state; none propagates the
nil-dereference panic of Set on an over-full cache with an empty list. -/
def runOps : LRUCache → List Op → Option LRUCache
  | lru, [] => some lru
  | lru, Op.get now key :: ops => runOps (lru.Get now key).1 ops
  | lru, Op.set now key value :: ops =>
    match lru.Set now key value with
    | some lru' => runOps lru' ops
    | none => none
  | lru, Op.sweep now :: ops => runOps (lru.cleanup now) ops

/-- The key and value fields carried by a well-formed JSON body of a write
request, as the transport parses them. -/
structure SetRequest where
  key : Int
  value : Int

/-- Mirrors json.NewDecoder(r.Body).Decode(&item) in SetHandler (lru.go lines
133-138), decoding into a CacheItem: every field of CacheItem is unexported,
and encoding/json cannot set unexported struct fields and silently ignores
unmatched JSON object keys, so for every well-formed body the decode reports
no error and the decoded item keeps the zero value of CacheItem, whatever key
and value the body carries. -/
def decodeCacheItem (_body : SetRequest) : CacheItem :=
  { key := 0, value := 0, expireAt := 0 }

/-- Mirrors SetHandler (lru.go lines 126-143) on a POST carrying a well-formed
JSON body: the body is decoded into a CacheItem, cache.Set(item.key,
item.value) is invoked, and status 201 (created) is written. -/
def SetHandler (lru : LRUCache) (now : Int) (body : SetRequest) : Option LRUCache × Nat :=
  (lru.Set now (decodeCacheItem body).key (decodeCacheItem body).value, 201)

/-- The pair of arguments SetHandler passes to Set for a given request body. -/
def setHandlerArgs (body : SetRequest) : Int × Int :=
  ((decodeCacheItem body).key, (decodeCacheItem body).value)

/-- The construction contract as the specification words it: non-positive
capacity or TTL is an InvalidConfiguration, fatal at startup. Modelled from
the spec for comparison with the source constructor, which has no such
check. -/
def NewLRUCacheChecked (capacity expireSec : Int) : Option LRUCache :=
  if capacity ≤ 0 ∨ expireSec ≤ 0 then none else some (NewLRUCache capacity expireSec)

/-- The structural invariant tying map, list, heap and allocator together:
map keys are unique (a Go map guarantee), the list holds no duplicate nodes,
every map binding points at a node that is in the list and stores that very
key, every listed node identifier is already allocated (below nextId), and
the node identifiers bound by the map are exactly the listed ones up to
order. Every state reachable from NewLRUCache satisfies it. -/
structure CacheInv (lru : LRUCache) : Prop where
  nodupKeys : (keysOf lru.cache).Nodup
  nodupOrder : lru.list.Nodup
  points : ∀ k eid, (k, eid) ∈ lru.cache → eid ∈ lru.list ∧ (lru.nodes eid).key = k
  fresh : ∀ eid, eid ∈ lru.list → eid < lru.nextId
  perm : (lru.cache.map Prod.snd).Perm lru.list

/-- The cache state reached by Set(1, 42) at instant 0 on a fresh cache with
capacity 1 and TTL 5: its single entry has deadline 5. -/
def c2state : LRUCache :=
  ((NewLRUCache 1 5).Set 0 1 42).getD (NewLRUCache 1 5)

/-- The cache state reached by Set(1, 10) at instant 0 on a fresh cache with
capacity 2 and TTL 100. -/
def c5after : LRUCache :=
  (runOps (NewLRUCache 2 100) [Op.set 0 1 10]).getD (NewLRUCache 2 100)

/-- The cache state reached by Set(3, 9) at instant 0 on a fresh cache with
capacity 1 and TTL 100. -/
def c7after : LRUCache :=
  ((NewLRUCache 1 100).Set 0 3 9).getD (NewLRUCache 1 100)

/-- A concrete full cache of capacity 1: one entry, key 5, value 50, deadline
5, stored in node 0. -/
def oneEntryCache : LRUCache :=
  { capacity := 1
    expireSec := 5
    cache := [(5, 0)]
    list := [0]
    nodes := fun n => if n = 0 then { key := 5, value := 50, expireAt := 5 } else { key := 0, value := 0, expireAt := 0 }
    nextId := 1 }

theorem Get_not_found (lru : LRUCache) (now key : Int) (h : findKey lru.cache key = none) :
    lru.Get now key = (lru, none) := by
  unfold LRUCache.Get
  rw [h]

theorem Get_expired (lru : LRUCache) (now key : Int) (eid : Nat)
    (h : findKey lru.cache key = some eid) (he : now > (lru.nodes eid).expireAt) :
    lru.Get now key =
      ({ lru with cache := eraseKey lru.cache key, list := lru.list.erase eid }, none) := by
  unfold LRUCache.Get
  rw [h]
  exact if_pos he

theorem Get_live (lru : LRUCache) (now key : Int) (eid : Nat)
    (h : findKey lru.cache key = some eid) (he : ¬ now > (lru.nodes eid).expireAt) :
    lru.Get now key =
      ({ lru with list := moveToFront eid lru.list }, some (lru.nodes eid).value) := by
  unfold LRUCache.Get
  rw [h]
  exact if_neg he

theorem Set_update (lru : LRUCache) (now key value : Int) (eid : Nat)
    (h : findKey lru.cache key = some eid) :
    lru.Set now key value =
      some { lru with
        nodes := fun n =>
          if n = eid then
            { lru.nodes eid with value := value, expireAt := now + lru.expireSec }
          else lru.nodes n
        list := moveToFront eid lru.list } := by
  unfold LRUCache.Set
  rw [h]

theorem Set_insert (lru : LRUCache) (now key value : Int)
    (h : findKey lru.cache key = none) (hlt : ¬ lru.capacity ≤ (lru.cache.length : Int)) :
    lru.Set now key value = some (pushFront lru now key value) := by
  unfold LRUCache.Set
  rw [h]
  exact if_neg hlt

theorem Set_evict (lru : LRUCache) (now key value : Int) (backId : Nat)
    (h : findKey lru.cache key = none) (hge : lru.capacity ≤ (lru.cache.length : Int))
    (hb : lru.list.getLast? = some backId) :
    lru.Set now key value =
      some (pushFront
        { lru with
          cache := eraseKey lru.cache (lru.nodes backId).key
          list := lru.list.dropLast } now key value) := by
  unfold LRUCache.Set
  rw [h, if_pos hge, hb]

theorem Set_panic (lru : LRUCache) (now key value : Int)
    (h : findKey lru.cache key = none) (hge : lru.capacity ≤ (lru.cache.length : Int))
    (hb : lru.list.getLast? = none) :
    lru.Set now key value = none := by
  unfold LRUCache.Set
  rw [h, if_pos hge, hb]

theorem findKey_mem {m : List (Int × Nat)} {k : Int} {e : Nat}
    (h : findKey m k = some e) : (k, e) ∈ m := by
  induction m with
  | nil => simp [findKey] at h
  | cons p rest ih =>
    obtain ⟨a, b⟩ := p
    simp only [findKey] at h
    by_cases hk : k = a
    · rw [if_pos hk] at h
      injection h with h
      subst hk
      subst h
      exact List.mem_cons_self _ _
    · rw [if_neg hk] at h
      exact List.mem_cons_of_mem _ (ih h)

theorem findKey_eq_none {m : List (Int × Nat)} {k : Int} :
    findKey m k = none ↔ k ∉ keysOf m := by
  induction m with
  | nil => simp [findKey, keysOf]
  | cons p rest ih =>
    by_cases hk : k = p.1
    · simp [findKey, keysOf, hk]
    · simp [findKey, keysOf, hk, ih]

theorem mem_keysOf {m : List (Int × Nat)} {k : Int} :
    k ∈ keysOf m ↔ ∃ e, (k, e) ∈ m := by
  constructor
  · intro h
    obtain ⟨p, hp, hk⟩ := List.mem_map.mp h
    refine ⟨p.2, ?_⟩
    rw [← hk]
    exact hp
  · rintro ⟨e, he⟩
    exact List.mem_map.mpr ⟨(k, e), he, rfl⟩

theorem mem_eraseKey {m : List (Int × Nat)} {k : Int} {p : Int × Nat} :
    p ∈ eraseKey m k ↔ p ∈ m ∧ p.1 ≠ k := by
  simp [eraseKey, List.mem_filter]

theorem keysOf_eraseKey_sublist (m : List (Int × Nat)) (k : Int) :
    (keysOf (eraseKey m k)).Sublist (keysOf m) :=
  List.Sublist.map _ (List.filter_sublist _)

theorem eraseKey_eq_self {m : List (Int × Nat)} {k : Int} (h : k ∉ keysOf m) :
    eraseKey m k = m := by
  apply List.filter_eq_self.mpr
  intro p hp
  simp only [Bool.not_eq_true', beq_eq_false_iff_ne, ne_eq]
  intro hk
  apply h
  apply mem_keysOf.mpr
  refine ⟨p.2, ?_⟩
  rw [← hk]
  exact hp

theorem not_mem_keysOf_eraseKey (m : List (Int × Nat)) (k : Int) :
    k ∉ keysOf (eraseKey m k) := by
  intro h
  obtain ⟨e, he⟩ := mem_keysOf.mp h
  exact (mem_eraseKey.mp he).2 rfl

theorem uniqueBinding {m : List (Int × Nat)} (hnd : (keysOf m).Nodup)
    {k : Int} {a b : Nat} (ha : (k, a) ∈ m) (hb : (k, b) ∈ m) : a = b := by
  induction m with
  | nil => cases ha
  | cons p rest ih =>
    have hnd' : p.1 ∉ keysOf rest ∧ (keysOf rest).Nodup := by
      have : (p.1 :: keysOf rest).Nodup := hnd
      exact List.nodup_cons.mp this
    rcases List.mem_cons.mp ha with ha1 | ha1 <;> rcases List.mem_cons.mp hb with hb1 | hb1
    · rw [← ha1] at hb1
      exact (Prod.ext_iff.mp hb1.symm).2
    · exfalso
      apply hnd'.1
      have hk : p.1 = k := (Prod.ext_iff.mp ha1.symm).1
      rw [hk]
      exact mem_keysOf.mpr ⟨b, hb1⟩
    · exfalso
      apply hnd'.1
      have hk : p.1 = k := (Prod.ext_iff.mp hb1.symm).1
      rw [hk]
      exact mem_keysOf.mpr ⟨a, ha1⟩
    · exact ih hnd'.2 ha1 hb1

theorem perm_eraseKey {m : List (Int × Nat)} {k : Int} {e : Nat}
    (hnd : (keysOf m).Nodup) (hmem : (k, e) ∈ m) :
    m.Perm ((k, e) :: eraseKey m k) := by
  induction m with
  | nil => cases hmem
  | cons p rest ih =>
    have hnd' : p.1 ∉ keysOf rest ∧ (keysOf rest).Nodup := by
      have : (p.1 :: keysOf rest).Nodup := hnd
      exact List.nodup_cons.mp this
    by_cases hk : p.1 = k
    · have hpe : p = (k, e) := by
        rcases List.mem_cons.mp hmem with h1 | h1
        · exact h1.symm
        · exfalso
          apply hnd'.1
          rw [hk]
          exact mem_keysOf.mpr ⟨e, h1⟩
      have herase : eraseKey (p :: rest) k = rest := by
        have h1 : eraseKey (p :: rest) k = eraseKey rest k := by
          simp [eraseKey, List.filter_cons, hk]
        rw [h1]
        apply eraseKey_eq_self
        rw [← hk]
        exact hnd'.1
      rw [herase, hpe]
    · have h1 : (k, e) ∈ rest := by
        rcases List.mem_cons.mp hmem with h2 | h2
        · exfalso
          exact hk (Prod.ext_iff.mp h2.symm).1
        · exact h2
      have herase : eraseKey (p :: rest) k = p :: eraseKey rest k := by
        simp [eraseKey, List.filter_cons, hk]
      rw [herase]
      exact ((ih hnd'.2 h1).cons p).trans (List.Perm.swap _ _ _)

theorem moveToFront_perm (eid : Nat) (l : List Nat) : (moveToFront eid l).Perm l := by
  unfold moveToFront
  split
  case isTrue h => exact (List.perm_cons_erase h).symm
  case isFalse h => exact List.Perm.refl _

theorem mem_moveToFront {a eid : Nat} {l : List Nat} : a ∈ moveToFront eid l ↔ a ∈ l :=
  (moveToFront_perm eid l).mem_iff

theorem nodup_moveToFront {eid : Nat} {l : List Nat} (h : l.Nodup) :
    (moveToFront eid l).Nodup := by
  unfold moveToFront
  split
  case isTrue hm => exact List.nodup_cons.mpr ⟨h.not_mem_erase, List.Nodup.erase _ h⟩
  case isFalse hm => exact h

theorem eq_dropLast_append {l : List Nat} {b : Nat} (h : l.getLast? = some b) :
    l = l.dropLast ++ [b] := by
  have hne : l ≠ [] := by
    intro he
    rw [he] at h
    simp at h
  have h2 := List.dropLast_append_getLast hne
  have h3 : l.getLast hne = b := by
    have h4 := List.getLast?_eq_getLast l hne
    rw [h4] at h
    injection h
  rw [← h3]
  exact h2.symm

theorem filter_map_snd (l : List (Int × Nat)) (p : Nat → Bool) :
    (l.filter (fun q => p q.2)).map Prod.snd = (l.map Prod.snd).filter p := by
  induction l with
  | nil => rfl
  | cons a t ih =>
    by_cases hp : p a.2
    · simp [List.filter_cons, hp, ih]
    · simp [List.filter_cons, hp, ih]

theorem CacheInv.sizes {lru : LRUCache} (h : CacheInv lru) :
    lru.cache.length = lru.list.length := by
  have h1 := h.perm.length_eq
  rwa [List.length_map] at h1

theorem CacheInv.covered {lru : LRUCache} (h : CacheInv lru) {eid : Nat}
    (he : eid ∈ lru.list) : ∃ k, (k, eid) ∈ lru.cache := by
  have h1 : eid ∈ lru.cache.map Prod.snd := h.perm.mem_iff.mpr he
  obtain ⟨p, hp, hpe⟩ := List.mem_map.mp h1
  refine ⟨p.1, ?_⟩
  rw [← hpe]
  exact hp

theorem inv_new (c t : Int) : CacheInv (NewLRUCache c t) := by
  refine ⟨?_, ?_, ?_, ?_, ?_⟩ <;> simp [NewLRUCache, keysOf]

theorem inv_get {lru : LRUCache} (h : CacheInv lru) (now key : Int) :
    CacheInv (lru.Get now key).1 := by
  cases hf : findKey lru.cache key with
  | none =>
    rw [Get_not_found lru now key hf]
    exact h
  | some eid =>
    have hmem := findKey_mem hf
    obtain ⟨hord, hkey⟩ := h.points key eid hmem
    by_cases hexp : now > (lru.nodes eid).expireAt
    · rw [Get_expired lru now key eid hf hexp]
      refine ⟨?_, ?_, ?_, ?_, ?_⟩
      · exact (keysOf_eraseKey_sublist _ _).nodup h.nodupKeys
      · exact (List.erase_sublist _ _).nodup h.nodupOrder
      · intro k' e' hm'
        obtain ⟨hmm, hkne⟩ := mem_eraseKey.mp hm'
        obtain ⟨ho', hk'⟩ := h.points k' e' hmm
        have hne : e' ≠ eid := by
          intro heq
          subst heq
          exact hkne (hk'.symm.trans hkey)
        exact ⟨(h.nodupOrder.mem_erase_iff).mpr ⟨hne, ho'⟩, hk'⟩
      · intro e' he'
        exact h.fresh e' (List.mem_of_mem_erase he')
      · have p1 := perm_eraseKey h.nodupKeys hmem
        have p2 := p1.map Prod.snd
        have p3 := List.perm_cons_erase hord
        exact ((p2.symm.trans h.perm).trans p3).cons_inv
    · rw [Get_live lru now key eid hf hexp]
      refine ⟨h.nodupKeys, nodup_moveToFront h.nodupOrder, ?_, ?_, ?_⟩
      · intro k' e' hm'
        obtain ⟨ho', hk'⟩ := h.points k' e' hm'
        exact ⟨mem_moveToFront.mpr ho', hk'⟩
      · intro e' he'
        exact h.fresh e' (mem_moveToFront.mp he')
      · exact h.perm.trans (moveToFront_perm eid lru.list).symm

theorem inv_pushFront {lru : LRUCache} (h : CacheInv lru) (now key value : Int)
    (habs : key ∉ keysOf lru.cache) : CacheInv (pushFront lru now key value) := by
  have hself : eraseKey lru.cache key = lru.cache := eraseKey_eq_self habs
  have hcacheEq : insertKey lru.cache key lru.nextId = (key, lru.nextId) :: lru.cache := by
    rw [insertKey, hself]
  have hfreshmem : lru.nextId ∉ lru.list := by
    intro hm
    exact absurd (h.fresh _ hm) (lt_irrefl _)
  refine ⟨?_, ?_, ?_, ?_, ?_⟩
  · show (keysOf (insertKey lru.cache key lru.nextId)).Nodup
    rw [hcacheEq]
    show (key :: keysOf lru.cache).Nodup
    exact List.nodup_cons.mpr ⟨habs, h.nodupKeys⟩
  · show (lru.nextId :: lru.list).Nodup
    exact List.nodup_cons.mpr ⟨hfreshmem, h.nodupOrder⟩
  · intro k' e' hm'
    have hm2 : (k', e') ∈ (key, lru.nextId) :: lru.cache := by
      rw [← hcacheEq]
      exact hm'
    rcases List.mem_cons.mp hm2 with h1 | h1
    · have hk : k' = key := (Prod.ext_iff.mp h1).1
      have he : e' = lru.nextId := (Prod.ext_iff.mp h1).2
      subst hk
      subst he
      constructor
      · exact List.mem_cons_self _ _
      · simp [pushFront]
    · obtain ⟨ho', hk'⟩ := h.points k' e' h1
      have hne : e' ≠ lru.nextId := Nat.ne_of_lt (h.fresh e' ho')
      constructor
      · exact List.mem_cons_of_mem _ ho'
      · show ((pushFront lru now key value).nodes e').key = k'
        simpa [pushFront, hne] using hk'
  · intro e' he'
    show e' < lru.nextId + 1
    rcases List.mem_cons.mp he' with h1 | h1
    · omega
    · have := h.fresh e' h1
      omega
  · show ((insertKey lru.cache key lru.nextId).map Prod.snd).Perm (lru.nextId :: lru.list)
    rw [hcacheEq]
    exact List.Perm.cons _ h.perm

theorem back_mem_list {l : List Nat} {b : Nat} (h : l.getLast? = some b) : b ∈ l := by
  rw [eq_dropLast_append h]
  exact List.mem_append.mpr (Or.inr (List.mem_singleton.mpr rfl))

theorem back_not_mem_dropLast {l : List Nat} {b : Nat} (hnd : l.Nodup)
    (h : l.getLast? = some b) : b ∉ l.dropLast := by
  intro hm
  have h2 := hnd
  rw [eq_dropLast_append h] at h2
  exact (List.nodup_append.mp h2).2.2 hm (List.mem_singleton.mpr rfl)

theorem inv_evict_mid {lru : LRUCache} (h : CacheInv lru) {backId : Nat}
    (hb : lru.list.getLast? = some backId) :
    CacheInv { lru with
      cache := eraseKey lru.cache (lru.nodes backId).key
      list := lru.list.dropLast } ∧
    ((lru.nodes backId).key, backId) ∈ lru.cache := by
  have hbmem : backId ∈ lru.list := back_mem_list hb
  obtain ⟨kb, hkb⟩ := h.covered hbmem
  have hbkey : (lru.nodes backId).key = kb := (h.points kb backId hkb).2
  have hkb' : ((lru.nodes backId).key, backId) ∈ lru.cache := by
    rw [hbkey]
    exact hkb
  have horder : lru.list = lru.list.dropLast ++ [backId] := eq_dropLast_append hb
  refine ⟨⟨?_, ?_, ?_, ?_, ?_⟩, hkb'⟩
  · exact (keysOf_eraseKey_sublist _ _).nodup h.nodupKeys
  · exact (List.dropLast_sublist _).nodup h.nodupOrder
  · intro k' e' hm'
    obtain ⟨hmm, hkne⟩ := mem_eraseKey.mp hm'
    obtain ⟨ho', hk'⟩ := h.points k' e' hmm
    have hne : e' ≠ backId := by
      intro heq
      subst heq
      exact hkne hk'.symm
    refine ⟨?_, hk'⟩
    have h1 : e' ∈ lru.list.dropLast ++ [backId] := by
      rw [← horder]
      exact ho'
    rcases List.mem_append.mp h1 with h2 | h2
    · exact h2
    · exact absurd (List.mem_singleton.mp h2) hne
  · intro e' he'
    exact h.fresh e' ((List.dropLast_sublist _).subset he')
  · have p1 := perm_eraseKey h.nodupKeys hkb'
    have p2 := p1.map Prod.snd
    have p3 : lru.list.Perm (backId :: lru.list.dropLast) := by
      nth_rewrite 1 [horder]
      exact List.perm_append_comm
    exact ((p2.symm.trans h.perm).trans p3).cons_inv

theorem inv_set {lru lru' : LRUCache} (h : CacheInv lru) {now key value : Int}
    (hs : lru.Set now key value = some lru') : CacheInv lru' := by
  cases hf : findKey lru.cache key with
  | some eid =>
    rw [Set_update lru now key value eid hf] at hs
    injection hs with hs
    subst hs
    refine ⟨h.nodupKeys, nodup_moveToFront h.nodupOrder, ?_, ?_, ?_⟩
    · intro k' e' hm'
      obtain ⟨ho', hk'⟩ := h.points k' e' hm'
      refine ⟨mem_moveToFront.mpr ho', ?_⟩
      by_cases he : e' = eid
      · subst he
        simpa using hk'
      · simpa [he] using hk'
    · intro e' he'
      exact h.fresh e' (mem_moveToFront.mp he')
    · exact h.perm.trans (moveToFront_perm eid lru.list).symm
  | none =>
    have habs : key ∉ keysOf lru.cache := findKey_eq_none.mp hf
    by_cases hge : lru.capacity ≤ (lru.cache.length : Int)
    · cases hb : lru.list.getLast? with
      | none =>
        rw [Set_panic lru now key value hf hge hb] at hs
        cases hs
      | some backId =>
        rw [Set_evict lru now key value backId hf hge hb] at hs
        injection hs with hs
        subst hs
        obtain ⟨hmid, _⟩ := inv_evict_mid h hb
        apply inv_pushFront hmid
        intro hk
        exact habs ((keysOf_eraseKey_sublist _ _).subset hk)
    · rw [Set_insert lru now key value hf hge] at hs
      injection hs with hs
      subst hs
      exact inv_pushFront h now key value habs

theorem cleanup_list_eq {lru : LRUCache} (h : CacheInv lru) (now : Int) :
    (lru.cleanup now).list =
      lru.list.filter (fun eid => !decide (now > (lru.nodes eid).expireAt)) := by
  simp only [LRUCache.cleanup]
  apply List.filter_congr
  intro e he
  congr 1
  by_cases hexp : now > (lru.nodes e).expireAt
  · rw [decide_eq_true hexp]
    rw [List.any_eq_true]
    obtain ⟨k, hk⟩ := h.covered he
    exact ⟨(k, e), hk, by simp [hexp]⟩
  · rw [decide_eq_false hexp]
    rw [List.any_eq_false]
    intro p hp hcontra
    rw [Bool.and_eq_true] at hcontra
    obtain ⟨h1, h2⟩ := hcontra
    rw [beq_iff_eq] at h2
    rw [decide_eq_true_eq] at h1
    rw [h2] at h1
    exact hexp h1

theorem inv_cleanup {lru : LRUCache} (h : CacheInv lru) (now : Int) :
    CacheInv (lru.cleanup now) := by
  have hlist := cleanup_list_eq h now
  refine ⟨?_, ?_, ?_, ?_, ?_⟩
  · exact (List.Sublist.map _ (List.filter_sublist _)).nodup h.nodupKeys
  · rw [hlist]
    exact (List.filter_sublist _).nodup h.nodupOrder
  · intro k' e' hm'
    have hm2 : (k', e') ∈ lru.cache.filter (fun p => !decide (now > (lru.nodes p.2).expireAt)) := hm'
    obtain ⟨hmm, hpred⟩ := List.mem_filter.mp hm2
    obtain ⟨ho', hk'⟩ := h.points k' e' hmm
    constructor
    · rw [hlist]
      exact List.mem_filter.mpr ⟨ho', hpred⟩
    · exact hk'
  · intro e' he'
    rw [hlist] at he'
    exact h.fresh e' (List.mem_of_mem_filter he')
  · rw [hlist]
    show ((lru.cache.filter (fun p => !decide (now > (lru.nodes p.2).expireAt))).map Prod.snd).Perm _
    rw [filter_map_snd lru.cache (fun n => !decide (now > (lru.nodes n).expireAt))]
    exact h.perm.filter _

theorem inv_runOps (ops : List Op) : ∀ (lru lru' : LRUCache),
    CacheInv lru → runOps lru ops = some lru' → CacheInv lru' := by
  induction ops with
  | nil =>
    intro lru lru' h hr
    injection hr with hr
    exact hr ▸ h
  | cons op ops ih =>
    intro lru lru' h hr
    cases op with
    | get now key =>
      exact ih _ lru' (inv_get h now key) hr
    | set now key value =>
      cases hs : lru.Set now key value with
      | none =>
        simp only [runOps] at hr
        rw [hs] at hr
        exact Option.noConfusion hr
      | some lru2 =>
        simp only [runOps] at hr
        rw [hs] at hr
        exact ih lru2 lru' (inv_set h hs) hr
    | sweep now =>
      exact ih _ lru' (inv_cleanup h now) hr

theorem capacity_get (lru : LRUCache) (now key : Int) :
    ((lru.Get now key).1).capacity = lru.capacity := by
  cases hf : findKey lru.cache key with
  | none => rw [Get_not_found lru now key hf]
  | some eid =>
    by_cases hexp : now > (lru.nodes eid).expireAt
    · rw [Get_expired lru now key eid hf hexp]
    · rw [Get_live lru now key eid hf hexp]

theorem capacity_set {lru lru' : LRUCache} {now key value : Int}
    (hs : lru.Set now key value = some lru') : lru'.capacity = lru.capacity := by
  cases hf : findKey lru.cache key with
  | some eid =>
    rw [Set_update lru now key value eid hf] at hs
    injection hs with hs
    subst hs
    rfl
  | none =>
    by_cases hge : lru.capacity ≤ (lru.cache.length : Int)
    · cases hbk : lru.list.getLast? with
      | none =>
        rw [Set_panic lru now key value hf hge hbk] at hs
        exact Option.noConfusion hs
      | some backId =>
        rw [Set_evict lru now key value backId hf hge hbk] at hs
        injection hs with hs
        subst hs
        rfl
    · rw [Set_insert lru now key value hf hge] at hs
      injection hs with hs
      subst hs
      rfl

theorem length_get_le (lru : LRUCache) (now key : Int) :
    ((lru.Get now key).1).cache.length ≤ lru.cache.length := by
  cases hf : findKey lru.cache key with
  | none =>
    rw [Get_not_found lru now key hf]
  | some eid =>
    by_cases hexp : now > (lru.nodes eid).expireAt
    · rw [Get_expired lru now key eid hf hexp]
      exact List.length_filter_le _ _
    · rw [Get_live lru now key eid hf hexp]

theorem length_set_le {lru lru' : LRUCache} (h : CacheInv lru) {now key value : Int}
    (hs : lru.Set now key value = some lru')
    (hb : (lru.cache.length : Int) ≤ lru.capacity) :
    (lru'.cache.length : Int) ≤ lru.capacity := by
  cases hf : findKey lru.cache key with
  | some eid =>
    rw [Set_update lru now key value eid hf] at hs
    injection hs with hs
    subst hs
    exact hb
  | none =>
    have habs : key ∉ keysOf lru.cache := findKey_eq_none.mp hf
    have hself : eraseKey lru.cache key = lru.cache := eraseKey_eq_self habs
    by_cases hge : lru.capacity ≤ (lru.cache.length : Int)
    · cases hbk : lru.list.getLast? with
      | none =>
        rw [Set_panic lru now key value hf hge hbk] at hs
        exact Option.noConfusion hs
      | some backId =>
        rw [Set_evict lru now key value backId hf hge hbk] at hs
        injection hs with hs
        subst hs
        obtain ⟨hmid, hkb⟩ := inv_evict_mid h hbk
        have hperm := perm_eraseKey h.nodupKeys hkb
        have hlen : lru.cache.length =
            (eraseKey lru.cache (lru.nodes backId).key).length + 1 := by
          have h2 := hperm.length_eq
          simpa using h2
        have habs2 : key ∉ keysOf (eraseKey lru.cache (lru.nodes backId).key) :=
          fun hk => habs ((keysOf_eraseKey_sublist _ _).subset hk)
        have hself2 : eraseKey (eraseKey lru.cache (lru.nodes backId).key) key =
            eraseKey lru.cache (lru.nodes backId).key := eraseKey_eq_self habs2
        have hfinal : (pushFront
            { lru with
              cache := eraseKey lru.cache (lru.nodes backId).key
              list := lru.list.dropLast } now key value).cache.length =
            (eraseKey lru.cache (lru.nodes backId).key).length + 1 := by
          simp [pushFront, insertKey, hself2]
        rw [hfinal]
        omega
    · rw [Set_insert lru now key value hf hge] at hs
      injection hs with hs
      subst hs
      have hfinal : (pushFront lru now key value).cache.length = lru.cache.length + 1 := by
        simp [pushFront, insertKey, hself]
      rw [hfinal]
      omega

theorem set_isSome {lru : LRUCache} (h : CacheInv lru) (hc : 0 < lru.capacity)
    (now key value : Int) : (lru.Set now key value).isSome = true := by
  cases hf : findKey lru.cache key with
  | some eid =>
    rw [Set_update lru now key value eid hf]
    rfl
  | none =>
    by_cases hge : lru.capacity ≤ (lru.cache.length : Int)
    · have hlen : 0 < lru.cache.length := by omega
      have hlist : lru.list ≠ [] := by
        intro hnil
        have hsz := h.sizes
        rw [hnil] at hsz
        simp only [List.length_nil] at hsz
        omega
      cases hbk : lru.list.getLast? with
      | none =>
        exfalso
        have h2 := List.getLast?_isSome.mpr hlist
        rw [hbk] at h2
        simp at h2
      | some backId =>
        rw [Set_evict lru now key value backId hf hge hbk]
        rfl
    · rw [Set_insert lru now key value hf hge]
      rfl

theorem good_runOps (ops : List Op) : ∀ (lru : LRUCache), CacheInv lru →
    (lru.cache.length : Int) ≤ lru.capacity → 0 < lru.capacity →
    ∃ lru', runOps lru ops = some lru' ∧ CacheInv lru' ∧
      (lru'.cache.length : Int) ≤ lru'.capacity ∧ lru'.capacity = lru.capacity := by
  induction ops with
  | nil =>
    intro lru h hb hc
    exact ⟨lru, rfl, h, hb, rfl⟩
  | cons op ops ih =>
    intro lru h hb hc
    cases op with
    | get now key =>
      have hcap := capacity_get lru now key
      have hlen := length_get_le lru now key
      obtain ⟨lru', h1, h2, h3, h4⟩ := ih (lru.Get now key).1 (inv_get h now key)
        (by
          rw [hcap]
          have h5 : (((lru.Get now key).1).cache.length : Int) ≤ (lru.cache.length : Int) := by
            exact_mod_cast hlen
          omega)
        (by rw [hcap]; exact hc)
      refine ⟨lru', ?_, h2, h3, by rw [h4, hcap]⟩
      simp only [runOps]
      exact h1
    | set now key value =>
      have hsome := set_isSome h hc now key value
      cases hs : lru.Set now key value with
      | none =>
        rw [hs] at hsome
        simp at hsome
      | some lru2 =>
        have hcap := capacity_set hs
        have hlen := length_set_le h hs hb
        obtain ⟨lru', h1, h2, h3, h4⟩ := ih lru2 (inv_set h hs)
          (by rw [hcap]; exact hlen) (by rw [hcap]; exact hc)
        refine ⟨lru', ?_, h2, h3, by rw [h4, hcap]⟩
        simp only [runOps]
        rw [hs]
        exact h1
    | sweep now =>
      have hlen : (lru.cleanup now).cache.length ≤ lru.cache.length :=
        List.length_filter_le _ _
      obtain ⟨lru', h1, h2, h3, h4⟩ := ih (lru.cleanup now) (inv_cleanup h now)
        (by
          show ((lru.cleanup now).cache.length : Int) ≤ lru.capacity
          have h5 : ((lru.cleanup now).cache.length : Int) ≤ (lru.cache.length : Int) := by
            exact_mod_cast hlen
          omega)
        hc
      refine ⟨lru', ?_, h2, h3, h4⟩
      simp only [runOps]
      exact h1

theorem keysOf_insertKey (m : List (Int × Nat)) (k : Int) (e : Nat) :
    keysOf (insertKey m k e) = k :: keysOf (eraseKey m k) := rfl

theorem inv_oneEntryCache : CacheInv oneEntryCache := by
  refine ⟨?_, ?_, ?_, ?_, ?_⟩
  · decide
  · decide
  · intro k eid hm
    have hm2 : (k, eid) ∈ [((5 : Int), (0 : Nat))] := hm
    rw [List.mem_singleton] at hm2
    have hk : k = 5 := (Prod.ext_iff.mp hm2).1
    have he : eid = 0 := (Prod.ext_iff.mp hm2).2
    subst hk
    subst he
    exact ⟨List.mem_singleton.mpr rfl, rfl⟩
  · intro eid he
    have he2 : eid ∈ [(0 : Nat)] := he
    rw [List.mem_singleton] at he2
    subst he2
    decide
  · show ([((5 : Int), (0 : Nat))].map Prod.snd).Perm [0]
    exact List.Perm.refl _

theorem get_pushFront (lru : LRUCache) (now key value : Int) (httl : 0 < lru.expireSec) :
    ((pushFront lru now key value).Get now key).2 = some value := by
  have hf : findKey (pushFront lru now key value).cache key = some lru.nextId := by
    show findKey (insertKey lru.cache key lru.nextId) key = some lru.nextId
    rw [insertKey]
    simp [findKey]
  have hnode : (pushFront lru now key value).nodes lru.nextId =
      { key := key, value := value, expireAt := now + lru.expireSec } := by
    show (if lru.nextId = lru.nextId then
        ({ key := key, value := value, expireAt := now + lru.expireSec } : CacheItem)
      else lru.nodes lru.nextId) =
      { key := key, value := value, expireAt := now + lru.expireSec }
    rw [if_pos rfl]
  have hlive : ¬ now > ((pushFront lru now key value).nodes lru.nextId).expireAt := by
    rw [hnode]
    show ¬ now > now + lru.expireSec
    omega
  rw [Get_live _ now key lru.nextId hf hlive]
  rw [hnode]

/-- C1: the spec claims SetHandler passes the decoded request key and value to
Set, and itself flags the likely bug; the source decodes into CacheItem,
whose fields are all unexported, so the decoded item stays at its zero value
and the handler always calls Set(0, 0). For the body carrying key 5 and
value 7 the arguments handed to Set are (0, 0), not (5, 7): the code
contradicts the intended contract the spec states. -/
theorem setHandlerIgnoresBody :
    setHandlerArgs { key := 5, value := 7 } = (0, 0) ∧
    setHandlerArgs { key := 5, value := 7 } ≠ (5, 7) := by
  refine ⟨rfl, ?_⟩
  decide

/-- C3 counterexample: at capacity 0 (and TTL 7) the source constructor
performs no validation and succeeds, returning the ordinary initialised empty
cache, while the spec-worded checked constructor rejects the same
configuration; construction does not fail fatally on non-positive capacity,
contrary to the claim. -/
theorem newLRUCacheNoValidation :
    NewLRUCacheChecked 0 7 = none ∧
    NewLRUCache 0 7 =
      { capacity := 0
        expireSec := 7
        cache := []
        list := []
        nodes := fun _ => { key := 0, value := 0, expireAt := 0 }
        nextId := 0 } := by
  refine ⟨?_, rfl⟩
  rfl

/-- C3 (amended): construction never fails and performs no validation: for
every capacity and ttlSeconds, including non-positive values, NewLRUCache
returns the initialised empty cache with exactly the supplied fields. -/
theorem newLRUCacheAlwaysSucceeds (capacity expireSec : Int) :
    NewLRUCache capacity expireSec =
      { capacity := capacity
        expireSec := expireSec
        cache := []
        list := []
        nodes := fun _ => { key := 0, value := 0, expireAt := 0 }
        nextId := 0 } := rfl

/-- C10: Get on a key absent from the index is a pure miss: it returns the
whole state unchanged (index, order sequence, every node and the allocator)
together with the NotFound result. -/
theorem getAbsentFrame (lru : LRUCache) (now key : Int)
    (h : findKey lru.cache key = none) :
    lru.Get now key = (lru, none) :=
  Get_not_found lru now key h

/-- Witness for getAbsentFrame: the empty cache of capacity 2 and TTL 9, read
at instant 3 with the absent key 4. -/
theorem getAbsentFrame_witness :
    (NewLRUCache 2 9).Get 3 4 = (NewLRUCache 2 9, none) :=
  getAbsentFrame (NewLRUCache 2 9) 3 4 rfl

/-- C7: freshness: when Set(key, value) succeeds at instant now on a cache
with positive TTL, an immediate Get(key) at the same instant returns that
value, whichever branch Set took (update, plain insert, or insert with
eviction). -/
theorem freshness (lru : LRUCache) (now key value : Int) (httl : 0 < lru.expireSec)
    (lru' : LRUCache) (hset : lru.Set now key value = some lru') :
    (lru'.Get now key).2 = some value := by
  cases hf : findKey lru.cache key with
  | some eid =>
    rw [Set_update lru now key value eid hf] at hset
    injection hset with hset
    subst hset
    have hf2 : findKey ({ lru with
        nodes := fun n =>
          if n = eid then
            { lru.nodes eid with value := value, expireAt := now + lru.expireSec }
          else lru.nodes n
        list := moveToFront eid lru.list } : LRUCache).cache key = some eid := hf
    have hlive : ¬ now > (({ lru with
        nodes := fun n =>
          if n = eid then
            { lru.nodes eid with value := value, expireAt := now + lru.expireSec }
          else lru.nodes n
        list := moveToFront eid lru.list } : LRUCache).nodes eid).expireAt := by
      show ¬ now > (if eid = eid then
          { lru.nodes eid with value := value, expireAt := now + lru.expireSec }
        else lru.nodes eid).expireAt
      rw [if_pos rfl]
      show ¬ now > now + lru.expireSec
      omega
    rw [Get_live _ now key eid hf2 hlive]
    show some (if eid = eid then
        { lru.nodes eid with value := value, expireAt := now + lru.expireSec }
      else lru.nodes eid).value = some value
    rw [if_pos rfl]
  | none =>
    by_cases hge : lru.capacity ≤ (lru.cache.length : Int)
    · cases hbk : lru.list.getLast? with
      | none =>
        rw [Set_panic lru now key value hf hge hbk] at hset
        exact Option.noConfusion hset
      | some backId =>
        rw [Set_evict lru now key value backId hf hge hbk] at hset
        injection hset with hset
        subst hset
        exact get_pushFront _ now key value httl
    · rw [Set_insert lru now key value hf hge] at hset
      injection hset with hset
      subst hset
      exact get_pushFront lru now key value httl

/-- Witness for freshness: Set(3, 9) at instant 0 on the empty cache of
capacity 1 and TTL 100, then Get(3) at instant 0, returns 9. -/
theorem freshness_witness :
    0 < (NewLRUCache 1 100).expireSec ∧ (c7after.Get 0 3).2 = some 9 :=
  ⟨by decide, freshness (NewLRUCache 1 100) 0 3 9 (by decide) c7after rfl⟩

/-- C8: recency refresh: on a capacity-2 cache with TTL 100 and all operations
at instant 0 (so nothing expires), the trace Set(1,a); Set(2,b); Get(1);
Set(3,c) evicts key 2, the least recently used, and not key 1: afterwards
Get(2) is NotFound while Get(1) and Get(3) return their stored values. -/
theorem recencyRefresh (a b c : Int) :
    (runOps (NewLRUCache 2 100)
        [Op.set 0 1 a, Op.set 0 2 b, Op.get 0 1, Op.set 0 3 c]).map
      (fun s => ((s.Get 0 2).2, (s.Get 0 1).2, (s.Get 0 3).2)) =
      some (none, some a, some c) := rfl

/-- C2 counterexample: the claim treats an entry as expired when
now >= expiresAt, but the source uses time.Now().After, which is strict. In
the state after Set(1, 42) at instant 0 with TTL 5, key 1 is present in node
0 with deadline exactly 5, and a Get(1) at instant 5, where now >= expiresAt
holds, still returns the value 42 instead of the NotFound the claim
demands. -/
theorem getBoundaryCounterexample :
    findKey c2state.cache 1 = some 0 ∧
    (c2state.nodes 0).expireAt = 5 ∧
    (5 : Int) ≥ (c2state.nodes 0).expireAt ∧
    (c2state.Get 5 1).2 = some 42 := by
  refine ⟨rfl, rfl, by decide, rfl⟩

/-- C2 (amended: an entry counts as expired only when now is strictly after
its deadline, now > expiresAt, matching time.Now().After): on an invariant
state, Get returns NotFound exactly when the key is absent from the index or
its entry is strictly expired at the instant of the call, and in the expired
case Get removes the entry from both the index and the order list before
returning NotFound. -/
theorem getNotFoundIff (lru : LRUCache) (hinv : CacheInv lru) (now key : Int) :
    ((lru.Get now key).2 = none ↔
      findKey lru.cache key = none ∨
        ∃ eid, findKey lru.cache key = some eid ∧ now > (lru.nodes eid).expireAt) ∧
    (∀ eid, findKey lru.cache key = some eid → now > (lru.nodes eid).expireAt →
      findKey ((lru.Get now key).1).cache key = none ∧
      eid ∉ ((lru.Get now key).1).list) := by
  cases hf : findKey lru.cache key with
  | none =>
    rw [Get_not_found lru now key hf]
    refine ⟨by simp, ?_⟩
    intro eid heq hexp
    exact Option.noConfusion heq
  | some eid0 =>
    by_cases hexp : now > (lru.nodes eid0).expireAt
    · rw [Get_expired lru now key eid0 hf hexp]
      constructor
      · exact ⟨fun _ => Or.inr ⟨eid0, rfl, hexp⟩, fun _ => rfl⟩
      · intro eid heq hexp2
        injection heq with heq
        subst heq
        constructor
        · show findKey (eraseKey lru.cache key) key = none
          exact findKey_eq_none.mpr (not_mem_keysOf_eraseKey _ _)
        · show eid0 ∉ lru.list.erase eid0
          exact hinv.nodupOrder.not_mem_erase
    · rw [Get_live lru now key eid0 hf hexp]
      constructor
      · constructor
        · intro hnone
          exact Option.noConfusion hnone
        · rintro (h1 | ⟨eid, heq, hexp2⟩)
          · exact Option.noConfusion h1
          · injection heq with heq
            subst heq
            exact absurd hexp2 hexp
      · intro eid heq hexp2
        injection heq with heq
        subst heq
        exact absurd hexp2 hexp

/-- Witness for getNotFoundIff: the full one-entry cache, read at instant 9
with key 5, whose entry has deadline 5 and is strictly expired. -/
theorem getNotFoundIff_witness :
    ((oneEntryCache.Get 9 5).2 = none ↔
      findKey oneEntryCache.cache 5 = none ∨
        ∃ eid, findKey oneEntryCache.cache 5 = some eid ∧
          9 > (oneEntryCache.nodes eid).expireAt) ∧
    (∀ eid, findKey oneEntryCache.cache 5 = some eid →
      9 > (oneEntryCache.nodes eid).expireAt →
      findKey ((oneEntryCache.Get 9 5).1).cache 5 = none ∧
      eid ∉ ((oneEntryCache.Get 9 5).1).list) :=
  getNotFoundIff oneEntryCache inv_oneEntryCache 9 5

/-- C4: every cache constructed with positive capacity keeps the capacity
invariant under every sequence of Get, Set and sweep passes: each sequence
runs to completion (no Set ever panics), and afterwards the index map and the
order list hold the same number of entries, a number at most the capacity;
since the sequence is universally quantified, the bound holds after every
prefix, that is, after every single operation. -/
theorem capacityInvariant (c t : Int) (hc : 0 < c) (ops : List Op) :
    ∃ lru', runOps (NewLRUCache c t) ops = some lru' ∧
      lru'.cache.length = lru'.list.length ∧ (lru'.cache.length : Int) ≤ c := by
  obtain ⟨lru', h1, h2, h3, h4⟩ := good_runOps ops (NewLRUCache c t) (inv_new c t)
    (by
      show ((List.length ([] : List (Int × Nat)) : Nat) : Int) ≤ c
      simp only [List.length_nil]
      omega)
    hc
  refine ⟨lru', h1, h2.sizes, ?_⟩
  have h5 : lru'.capacity = c := h4
  rw [← h5]
  exact h3

/-- Witness for capacityInvariant: capacity 2, TTL 100, and three inserts of
distinct keys, the third of which must evict. -/
theorem capacityInvariant_witness :
    ∃ lru', runOps (NewLRUCache 2 100)
        [Op.set 0 1 10, Op.set 0 2 20, Op.set 0 3 30] = some lru' ∧
      lru'.cache.length = lru'.list.length ∧ (lru'.cache.length : Int) ≤ 2 :=
  capacityInvariant 2 100 (by decide) [Op.set 0 1 10, Op.set 0 2 20, Op.set 0 3 30]

/-- C5: after every sequence of public operations from a fresh cache, every
key present in the index map points at a node of the order list whose stored
key field is that same key: repeated Sets that trigger eviction never corrupt
the map/order pairing. -/
theorem mapOrderPairing (c t : Int) (ops : List Op) (lru' : LRUCache)
    (h : runOps (NewLRUCache c t) ops = some lru') :
    ∀ k eid, (k, eid) ∈ lru'.cache → eid ∈ lru'.list ∧ (lru'.nodes eid).key = k :=
  (inv_runOps ops (NewLRUCache c t) lru' (inv_new c t) h).points

/-- Witness for mapOrderPairing: in the state after Set(1, 10) at instant 0 on
a fresh capacity-2 cache, the index binding of key 1 to node 0 points at a
listed node storing key 1. -/
theorem mapOrderPairing_witness :
    (0 : Nat) ∈ c5after.list ∧ (c5after.nodes 0).key = 1 :=
  mapOrderPairing 2 100 [Op.set 0 1 10] c5after rfl 1 0 (by decide)

/-- C6: a Set of a key absent from the index, on an invariant cache that holds
exactly capacity entries (capacity positive, as the construction contract
fixes), always succeeds by evicting the back, least recently used, node of
the order list, with no hypothesis on that node's deadline, so the eviction
happens regardless of whether the tail entry is expired: the back node's key
is deleted from the index, its node leaves the order list, and the new entry
is inserted at the front with deadline now + TTL and indexed under its
key. -/
theorem setEvictsTail (lru : LRUCache) (hinv : CacheInv lru) (hpos : 0 < lru.capacity)
    (now key value : Int) (hfull : (lru.cache.length : Int) = lru.capacity)
    (habs : findKey lru.cache key = none) :
    ∃ backId lru', lru.list.getLast? = some backId ∧
      lru.Set now key value = some lru' ∧
      findKey lru'.cache ((lru.nodes backId).key) = none ∧
      backId ∉ lru'.list ∧
      lru'.list = lru.nextId :: lru.list.dropLast ∧
      lru'.nodes lru.nextId = { key := key, value := value, expireAt := now + lru.expireSec } ∧
      findKey lru'.cache key = some lru.nextId := by
  have hge : lru.capacity ≤ (lru.cache.length : Int) := le_of_eq hfull.symm
  have hlen : 0 < lru.cache.length := by omega
  have hlist : lru.list ≠ [] := by
    intro hnil
    have hsz := hinv.sizes
    rw [hnil] at hsz
    simp only [List.length_nil] at hsz
    omega
  have hbsome := List.getLast?_isSome.mpr hlist
  cases hback : lru.list.getLast? with
  | none =>
    rw [hback] at hbsome
    simp at hbsome
  | some backId =>
  have hkeyabs : key ∉ keysOf lru.cache := findKey_eq_none.mp habs
  obtain ⟨hmid, hkb⟩ := inv_evict_mid hinv hback
  have hbkeymem : (lru.nodes backId).key ∈ keysOf lru.cache := mem_keysOf.mpr ⟨backId, hkb⟩
  have hne : (lru.nodes backId).key ≠ key := by
    intro heq
    rw [heq] at hbkeymem
    exact hkeyabs hbkeymem
  refine ⟨backId, _, rfl, Set_evict lru now key value backId habs hge hback, ?_, ?_, ?_, ?_, ?_⟩
  · apply findKey_eq_none.mpr
    show (lru.nodes backId).key ∉
      key :: keysOf (eraseKey (eraseKey lru.cache (lru.nodes backId).key) key)
    intro hm
    rcases List.mem_cons.mp hm with h1 | h1
    · exact hne h1
    · exact (not_mem_keysOf_eraseKey lru.cache (lru.nodes backId).key)
        ((keysOf_eraseKey_sublist _ _).subset h1)
  · show backId ∉ lru.nextId :: lru.list.dropLast
    intro hm
    rcases List.mem_cons.mp hm with h1 | h1
    · have h2 := hinv.fresh backId (back_mem_list hback)
      omega
    · exact back_not_mem_dropLast hinv.nodupOrder hback h1
  · rfl
  · show (if lru.nextId = lru.nextId then
        ({ key := key, value := value, expireAt := now + lru.expireSec } : CacheItem)
      else lru.nodes lru.nextId) =
      { key := key, value := value, expireAt := now + lru.expireSec }
    rw [if_pos rfl]
  · show findKey (insertKey (eraseKey lru.cache (lru.nodes backId).key) key lru.nextId)
      key = some lru.nextId
    rw [insertKey]
    simp [findKey]

/-- Witness for setEvictsTail: the full one-entry cache of capacity 1, with a
Set of the new key 7 at instant 0, evicting node 0 which holds key 5. -/
theorem setEvictsTail_witness :
    ∃ backId lru', oneEntryCache.list.getLast? = some backId ∧
      oneEntryCache.Set 0 7 70 = some lru' ∧
      findKey lru'.cache ((oneEntryCache.nodes backId).key) = none ∧
      backId ∉ lru'.list ∧
      lru'.list = oneEntryCache.nextId :: oneEntryCache.list.dropLast ∧
      lru'.nodes oneEntryCache.nextId =
        { key := 7, value := 70, expireAt := 0 + oneEntryCache.expireSec } ∧
      findKey lru'.cache 7 = some oneEntryCache.nextId :=
  setEvictsTail oneEntryCache inv_oneEntryCache (by decide) 0 7 70 (by decide)
    (by decide)

/-- C9: one cleanup pass on an invariant state removes from the index exactly
the entries whose deadline has passed at the sweep instant and from the order
list exactly the nodes of those entries, keeping every entry whose deadline
has not passed, with no hypothesis on how full the cache is: both structures
become their filtrations by non-expiredness. -/
theorem sweepRemovesExactlyExpired (lru : LRUCache) (hinv : CacheInv lru) (now : Int) :
    (lru.cleanup now).cache =
      lru.cache.filter (fun p => !decide (now > (lru.nodes p.2).expireAt)) ∧
    (lru.cleanup now).list =
      lru.list.filter (fun eid => !decide (now > (lru.nodes eid).expireAt)) :=
  ⟨rfl, cleanup_list_eq hinv now⟩

/-- Witness for sweepRemovesExactlyExpired: a sweep at instant 9 over the full
one-entry cache, whose single entry has deadline 5 and is removed. -/
theorem sweepRemovesExactlyExpired_witness :
    (oneEntryCache.cleanup 9).cache =
      oneEntryCache.cache.filter (fun p => !decide ((9 : Int) > (oneEntryCache.nodes p.2).expireAt)) ∧
    (oneEntryCache.cleanup 9).list =
      oneEntryCache.list.filter (fun eid => !decide ((9 : Int) > (oneEntryCache.nodes eid).expireAt)) :=
  sweepRemovesExactlyExpired oneEntryCache inv_oneEntryCache 9
